import Mathlib

set_option maxHeartbeats 2000000
set_option maxRecDepth 8000

namespace VScan

/-!
Shallow embedding of `src/main.py` (vscan-email-address-extractor).

The extraction core is `re.findall(r"[a-zA-Z0-9._%+-]+@[a-zA-Z0-9.-]+\.[a-zA-Z]{2,}", text)`
(lines 41 and 64), modelled below as an explicit leftmost, non-overlapping,
greedy backtracking matcher over `List Char`.
-/

/-- Characters of the regex class `[a-zA-Z0-9._%+-]` (the part before `@`). -/
def isLocalChar (c : Char) : Bool :=
  c.isAlpha || c.isDigit || c == '.' || c == '_' || c == '%' || c == '+' || c == '-'

/-- Characters of the regex class `[a-zA-Z0-9.-]` (the run after `@`). -/
def isDomainChar (c : Char) : Bool :=
  c.isAlpha || c.isDigit || c == '.' || c == '-'

abbrev Text := List Char

abbrev Email := List Char

/-- Greedy match of the final `[a-zA-Z]{2,}` of the regex: it sits at the end of
the pattern, so the engine takes the maximal run of ASCII letters and succeeds
iff that run has length at least two. Returns the consumed part and the rest. -/
def matchTld (s : List Char) : Option (List Char × List Char) :=
  if 2 ≤ (s.takeWhile Char.isAlpha).length then
    some (s.takeWhile Char.isAlpha, s.dropWhile Char.isAlpha)
  else none

/-- Backtracking match of `[a-zA-Z0-9.-]* \. [a-zA-Z]{2,}` at the head of `s`,
trying the longest `[a-zA-Z0-9.-]*` first (Python's greedy `+`/`*` semantics):
a domain character is first kept inside the run, and only if the rest of the
pattern cannot match afterwards is it reconsidered as the literal `.`. -/
def domTail : List Char → Option (List Char × List Char)
  | [] => none
  | c :: rest =>
    if isDomainChar c then
      match domTail rest with
      | some (m, r) => some (c :: m, r)
      | none =>
        if c == '.' then
          match matchTld rest with
          | some (t, r) => some ('.' :: t, r)
          | none => none
        else none
    else none

/-- Match of `[a-zA-Z0-9.-]+ \. [a-zA-Z]{2,}`: at least one domain character,
then `domTail` for the (greedy) remainder. -/
def domPlus : List Char → Option (List Char × List Char)
  | [] => none
  | c :: rest =>
    if isDomainChar c then
      match domTail rest with
      | some (m, r) => some (c :: m, r)
      | none => none
    else none

/-- Try to match the whole regex at the start of `s`. `[a-zA-Z0-9._%+-]+` is a
maximal run (no character of the class can be the following `@`), then the
literal `@`, then `domPlus`. Returns the matched substring and the rest. -/
def matchEmailAt (s : List Char) : Option (List Char × List Char) :=
  match s.dropWhile isLocalChar with
  | c :: rest =>
    if c == '@' && !(s.takeWhile isLocalChar).isEmpty then
      match domPlus rest with
      | some (m, r) => some (s.takeWhile isLocalChar ++ '@' :: m, r)
      | none => none
    else none
  | [] => none

/-- `re.findall` scan: try a match at every position, left to right; after a
match, continue at the first character past it (non-overlapping). The fuel
argument only serves termination; one unit is spent per scan step, and every
step consumes at least one character, so `fuel = s.length` is always enough
(`findEmailsAux_fuel` below). -/
def findEmailsAux : Nat → List Char → List (List Char)
  | 0, _ => []
  | _ + 1, [] => []
  | fuel + 1, c :: rest =>
    match matchEmailAt (c :: rest) with
    | some (m, r) => m :: findEmailsAux fuel r
    | none => findEmailsAux fuel rest

/-- All matches of the email regex in `s`, in scan order, as `re.findall`. -/
def findEmails (s : List Char) : List (List Char) := findEmailsAux s.length s

/-- `set(re.findall(pattern, text))`: the deduplicated matches. Python's `set`
is unordered; it is modelled as a duplicate-free list, and set-level claims are
stated up to `List.toFinset`. -/
def extract_emails (t : Text) : List Email := (findEmails t).dedup

/-! ### The spec's matching rule as a language predicate

`specMatch m` decides whether the string `m`, as a whole, has the shape
required by the spec's matching rule (§4.1): one-or-more characters from
`{letters, digits, ., _, %, +, -}`, then `@`, then one-or-more characters from
`{letters, digits, ., -}`, then a literal `.`, then two-or-more letters.
This is membership in the regex's language (any split), independent of the
greedy engine above. -/

/-- Two-or-more ASCII letters, and nothing else. -/
def tldOk (a : List Char) : Bool := decide (2 ≤ a.length) && a.all Char.isAlpha

/-- Does `m` decompose as `d ++ '.' :: a` with `d` all domain characters
(possibly empty) and `tldOk a`? Tries every split point. -/
def domSplitAux : List Char → Bool
  | [] => false
  | c :: rest => (c == '.' && tldOk rest) || (isDomainChar c && domSplitAux rest)

/-- Does `m` decompose as `d ++ '.' :: a` with `d` a nonempty run of domain
characters and `tldOk a`? -/
def domSplit : List Char → Bool
  | [] => false
  | c :: rest => isDomainChar c && domSplitAux rest

/-- Whole-string membership in the language of the email regex, written from
the spec's matching rule. -/
def specMatch (m : List Char) : Bool :=
  match m.dropWhile isLocalChar with
  | c :: rest => c == '@' && !(m.takeWhile isLocalChar).isEmpty && domSplit rest
  | [] => false

/-- `beginsWith p s` decides whether `p` is a prefix of `s`. -/
def beginsWith : List Char → List Char → Bool
  | [], _ => true
  | _ :: _, [] => false
  | a :: as, b :: bs => a == b && beginsWith as bs

/-- `substringOf m t` decides whether `m` occurs contiguously inside `t`. -/
def substringOf (m t : List Char) : Bool :=
  beginsWith m t ||
    match t with
    | [] => false
    | _ :: rest => substringOf m rest

/-! ### Source readers (`extract_emails_from_url`, `extract_emails_from_file`)

The URL branch (lines 26-48) issues `requests.get` with a 10s timeout, raises
on bad status, strips markup with BeautifulSoup and pattern-matches the visible
text; every failure (network error, timeout, bad status, parse error) is caught
and collapsed to `None`. It is modelled by its observable input: `fetched` is
`some t` when the fetch succeeded and `t` is the visible text, `none` when any
of the failure conditions occurred.

The file branch (lines 51-71) reads the file as UTF-8 text with
`errors='ignore'` (decoding never raises) and pattern-matches; `FileNotFoundError`
and any other exception are caught and collapsed to `None`. `content` is
`some t` when the file was readable with decoded text `t`, `none` otherwise. -/

/-- Lines 26-48 of `src/main.py`. -/
def extract_emails_from_url (fetched : Option Text) : Option (List Email) :=
  fetched.map extract_emails

/-- Lines 51-71 of `src/main.py`. -/
def extract_emails_from_file (content : Option Text) : Option (List Email) :=
  content.map extract_emails

/-! ### The directory walker (`extract_emails_from_directory`, lines 74-98)

The filesystem under a directory is a finitely branching tree. Each directory
node carries a `readableRoot` flag (can `os.scandir` list it?), its regular
files (each `some text` if readable/decodable, `none` if opening or reading it
raises), and its subdirectories. File and directory names play no role in the
extraction result, so they are not modelled.

`os.walk(top)` (top-down, default `onerror=None`) is modelled by `walkTriples`:
errors from the `scandir` call are *ignored* — an unlistable directory yields
no triple at all and is not descended into, it does not raise. Consequently the
`try/except` in `extract_emails_from_directory` has no exception to catch and
the function always returns a set (see claim C5). -/

mutual
inductive FSTree : Type where
  | node (readableRoot : Bool) (files : List (Option Text)) (subdirs : FSForest)
inductive FSForest : Type where
  | nil : FSForest
  | cons : FSTree → FSForest → FSForest
end

/-- The `readableRoot` flag of the root node. -/
def FSTree.rootOk : FSTree → Bool
  | .node r _ _ => r

/-- The files directly inside the root directory. -/
def FSTree.filesOf : FSTree → List (Option Text)
  | .node _ fs _ => fs

mutual
/-- The `files` components of the triples yielded by `os.walk(t)`, in yield
order (top-down: the root's triple first, then each subdirectory's walk). -/
def walkTriples : FSTree → List (List (Option Text))
  | .node false _ _ => []
  | .node true files subdirs => files :: walkForest subdirs
/-- `walkTriples` mapped over a forest of sibling subdirectories. -/
def walkForest : FSForest → List (List (Option Text))
  | .nil => []
  | .cons t rest => walkTriples t ++ walkForest rest
end

mutual
/-- All files at every nesting depth of the tree (spec-side notion). -/
def allFiles : FSTree → List (Option Text)
  | .node _ files subdirs => files ++ allFilesForest subdirs
def allFilesForest : FSForest → List (Option Text)
  | .nil => []
  | .cons t rest => allFiles t ++ allFilesForest rest
end

mutual
/-- Every directory node of the tree is listable. -/
def allReadable : FSTree → Bool
  | .node r _ subdirs => r && allReadableForest subdirs
def allReadableForest : FSForest → Bool
  | .nil => true
  | .cons t rest => allReadable t && allReadableForest rest
end

/-- The files the loop of lines 87-94 actually visits: all triples when
`recursive`, and — because of the `break` after the first iteration — only the
first yielded triple (the root's own files) otherwise. -/
def visitedFiles (t : FSTree) (recursive : Bool) : List (Option Text) :=
  if recursive then (walkTriples t).flatten else (walkTriples t).headD []

/-- The accumulation loop: `all_emails.update(emails)` when the file reader
returns a set, skip when it returns `None`. Python set union is modelled by
append-then-dedup. -/
def dirFold (files : List (Option Text)) (acc : List Email) : List Email :=
  files.foldl
    (fun acc f =>
      match extract_emails_from_file f with
      | some es => (acc ++ es).dedup
      | none => acc)
    acc

/-- Lines 74-98 of `src/main.py`. The result is always `some` set: `os.walk`
never raises (errors are swallowed by its default `onerror=None`), so the
`except` branch of lines 96-98 is unreachable. -/
def extract_emails_from_directory (t : FSTree) (recursive : Bool) : Option (List Email) :=
  some (dirFold (visitedFiles t recursive) [])

/-- Spec-side merge: the union of the per-file extraction results of the
readable files among `files`. -/
def mergeReadable (files : List (Option Text)) : Finset Email :=
  (files.filterMap id).foldr (fun c acc => (extract_emails c).toFinset ∪ acc) ∅

/-! ### Sink (`save_emails_to_file`, lines 101-115) and reading back -/

/-- The byte content written by `save_emails_to_file`: each address on its own
line (`f.write(email + '\n')`), in the set's iteration order (the order of the
result list in this model). -/
def save_emails_to_file (emails : List Email) : List Char :=
  (emails.map (fun e => e ++ ['\n'])).flatten

/-- Split a character stream at every newline. The result always has one more
component than there are newlines; a stream ending in a newline thus ends with
an empty component. -/
def splitNl : List Char → List (List Char)
  | [] => [[]]
  | c :: rest =>
    if c = '\n' then [] :: splitNl rest
    else
      match splitNl rest with
      | l :: ls => (c :: l) :: ls
      | [] => [[c]]

/-- Read a text file back line by line: the components between newlines; the
empty component after a final newline is not a line. -/
def readLines (content : List Char) : List (List Char) :=
  let p := splitNl content
  if p.getLast? = some [] then p.dropLast else p

/-! ### Dispatcher and `main` (lines 118-149)

`main` is modelled as a pure function of the run's observable environment: the
source string, the answers of `os.path.isfile` / `os.path.isdir` on it, the
outcome of the URL fetch if one were issued, the content of the source file if
it were read, the directory tree under the source if it were walked, and the
`--recursive` flag. -/

/-- Which of the three extraction branches (lines 129-134) runs. -/
inductive Branch : Type where
  | url : Branch
  | file : Branch
  | dir : Branch
deriving DecidableEq

/-- The environment `main` runs in. -/
structure World : Type where
  source : List Char
  isfile : Bool
  isdir : Bool
  urlFetch : Option Text
  fileContent : Option Text
  tree : FSTree
  recursive : Bool

/-- `source.startswith("http://") or source.startswith("https://")` (line 129). -/
def isUrlSource (source : List Char) : Bool :=
  beginsWith ['h', 't', 't', 'p', ':', '/', '/'] source ||
    beginsWith ['h', 't', 't', 'p', 's', ':', '/', '/'] source

/-- Everything observable about a run of `main`: which extraction branches ran
(in order), the value of the `emails` variable after extraction (`none` when
the invalid-source branch ran, line 136-137), the lines the sink emitted
(`none` when the sink — file write or stdout loop, lines 143-147 — was never
reached), and whether an error was logged. -/
structure RunOutcome : Type where
  branches : List Branch
  emails : Option (List Email)
  sink : Option (List Email)
  errorLogged : Bool

/-- Lines 139-147: abort with a log line when extraction yielded `None`,
otherwise hand the set to the sink. -/
def finishRun (bs : List Branch) (emails : Option (List Email)) : RunOutcome :=
  match emails with
  | none => ⟨bs, none, none, true⟩
  | some es => ⟨bs, some es, some es, false⟩

/-- Lines 118-149 of `src/main.py`. -/
def main_model (w : World) : RunOutcome :=
  if isUrlSource w.source then
    finishRun [Branch.url] (extract_emails_from_url w.urlFetch)
  else if w.isfile then
    finishRun [Branch.file] (extract_emails_from_file w.fileContent)
  else if w.isdir then
    finishRun [Branch.dir] (extract_emails_from_directory w.tree w.recursive)
  else
    ⟨[], none, none, true⟩

/-! ### Helper lemmas about `takeWhile`/`dropWhile` splits -/

theorem takeWhile_app (p : Char → Bool) (l : List Char) (a : Char) (r : List Char)
    (hl : ∀ x ∈ l, p x = true) (ha : p a = false) :
    (l ++ a :: r).takeWhile p = l := by
  induction l with
  | nil => simp [List.takeWhile_cons, ha]
  | cons b bs ih =>
    have hb : p b = true := hl b (by simp)
    simp only [List.cons_append, List.takeWhile_cons, hb, if_true]
    have := ih (fun x hx => hl x (by simp [hx]))
    simp [this]

theorem dropWhile_app (p : Char → Bool) (l : List Char) (a : Char) (r : List Char)
    (hl : ∀ x ∈ l, p x = true) (ha : p a = false) :
    (l ++ a :: r).dropWhile p = a :: r := by
  induction l with
  | nil => simp [List.dropWhile_cons, ha]
  | cons b bs ih =>
    have hb : p b = true := hl b (by simp)
    simp only [List.cons_append, List.dropWhile_cons, hb, if_true]
    exact ih (fun x hx => hl x (by simp [hx]))

/-! ### Soundness of the greedy matcher: every match is in the regex language -/

theorem matchTld_sound (s t r : List Char) (h : matchTld s = some (t, r)) :
    t ++ r = s ∧ tldOk t = true := by
  by_cases hlen : 2 ≤ (s.takeWhile Char.isAlpha).length
  · simp only [matchTld, hlen, if_true, Option.some.injEq, Prod.mk.injEq] at h
    obtain ⟨h1, h2⟩ := h
    subst h1; subst h2
    refine ⟨List.takeWhile_append_dropWhile Char.isAlpha s, ?_⟩
    unfold tldOk
    rw [Bool.and_eq_true, decide_eq_true_eq, List.all_eq_true]
    exact ⟨hlen, fun x hx => List.mem_takeWhile_imp hx⟩
  · simp [matchTld, hlen] at h

theorem domTail_sound (s : List Char) : ∀ m r, domTail s = some (m, r) →
    m ++ r = s ∧ domSplitAux m = true := by
  induction s with
  | nil => intro m r h; exact absurd h (by simp [domTail])
  | cons c rest ih =>
    intro m r h
    by_cases hdc : isDomainChar c = true
    · cases hdt : domTail rest with
      | some pr =>
        obtain ⟨m0, r0⟩ := pr
        simp only [domTail, hdc, if_true, hdt, Option.some.injEq, Prod.mk.injEq] at h
        obtain ⟨h1, h2⟩ := h
        subst h1; subst h2
        obtain ⟨hap, haux⟩ := ih m0 r0 hdt
        refine ⟨by simp [← hap], ?_⟩
        unfold domSplitAux
        rw [Bool.or_eq_true]
        exact Or.inr (by rw [Bool.and_eq_true]; exact ⟨hdc, haux⟩)
      | none =>
        by_cases hdot : c = '.'
        · subst hdot
          cases htl : matchTld rest with
          | some pr =>
            obtain ⟨t0, r0⟩ := pr
            simp only [domTail, hdc, if_true, hdt, beq_self_eq_true, htl,
              Option.some.injEq, Prod.mk.injEq] at h
            obtain ⟨h1, h2⟩ := h
            subst h1; subst h2
            obtain ⟨hap, hok⟩ := matchTld_sound rest t0 r0 htl
            refine ⟨by simp [← hap], ?_⟩
            unfold domSplitAux
            rw [Bool.or_eq_true]
            exact Or.inl (by rw [Bool.and_eq_true]; exact ⟨by simp, hok⟩)
          | none => simp [domTail, hdc, hdt, htl] at h
        · simp [domTail, hdc, hdt, hdot] at h
    · simp [domTail, hdc] at h

theorem domPlus_sound (s : List Char) : ∀ m r, domPlus s = some (m, r) →
    m ++ r = s ∧ domSplit m = true ∧ m ≠ [] := by
  cases s with
  | nil => intro m r h; exact absurd h (by simp [domPlus])
  | cons c rest =>
    intro m r h
    by_cases hdc : isDomainChar c = true
    · cases hdt : domTail rest with
      | some pr =>
        obtain ⟨m0, r0⟩ := pr
        simp only [domPlus, hdc, if_true, hdt, Option.some.injEq, Prod.mk.injEq] at h
        obtain ⟨h1, h2⟩ := h
        subst h1; subst h2
        obtain ⟨hap, haux⟩ := domTail_sound rest m0 r0 hdt
        refine ⟨by simp [← hap], ?_, by simp⟩
        unfold domSplit
        rw [Bool.and_eq_true]
        exact ⟨hdc, haux⟩
      | none => simp [domPlus, hdc, hdt] at h
    · simp [domPlus, hdc] at h

theorem matchEmailAt_sound (s : List Char) : ∀ m r, matchEmailAt s = some (m, r) →
    m ++ r = s ∧ specMatch m = true ∧ m ≠ [] := by
  intro m r h
  cases hdw : s.dropWhile isLocalChar with
  | nil => simp [matchEmailAt, hdw] at h
  | cons c rest =>
    by_cases hc : c = '@'
    · by_cases hne : (s.takeWhile isLocalChar).isEmpty = true
      · simp [matchEmailAt, hdw, hc, hne] at h
      · have hne' : (s.takeWhile isLocalChar).isEmpty = false := by
          simpa using hne
        cases hdp : domPlus rest with
        | some pr =>
          obtain ⟨dm, r0⟩ := pr
          simp only [matchEmailAt, hdw, hc, hne', beq_self_eq_true, Bool.not_false,
            Bool.and_true, Bool.and_self, if_true, hdp, Option.some.injEq,
            Prod.mk.injEq] at h
          obtain ⟨h1, h2⟩ := h
          subst h1; subst h2
          obtain ⟨hap, hds, _⟩ := domPlus_sound rest dm r0 hdp
          have htw : ∀ x ∈ s.takeWhile isLocalChar, isLocalChar x = true :=
            fun x hx => List.mem_takeWhile_imp hx
          have hs : s.takeWhile isLocalChar ++ '@' :: rest = s := by
            conv_rhs => rw [← List.takeWhile_append_dropWhile isLocalChar s]
            rw [hdw, hc]
          have hat : isLocalChar '@' = false := by decide
          refine ⟨?_, ?_, by simp⟩
          · rw [List.append_assoc, List.cons_append, hap, hs]
          · unfold specMatch
            rw [takeWhile_app isLocalChar _ _ _ htw hat,
              dropWhile_app isLocalChar _ _ _ htw hat]
            rw [Bool.and_eq_true, Bool.and_eq_true]
            exact ⟨⟨by simp, by simp [hne']⟩, hds⟩
        | none => simp [matchEmailAt, hdw, hc, hne', hdp] at h
    · simp [matchEmailAt, hdw, hc] at h

/-! ### Substring facts and soundness of the scan -/

theorem beginsWith_append (m r : List Char) : beginsWith m (m ++ r) = true := by
  induction m with
  | nil => rfl
  | cons a as ih => simp [beginsWith, ih]

theorem beginsWith_ex (m : List Char) : ∀ u, beginsWith m u = true → ∃ r, u = m ++ r := by
  induction m with
  | nil => intro u _; exact ⟨u, rfl⟩
  | cons a as ih =>
    intro u h
    cases u with
    | nil => simp [beginsWith] at h
    | cons b bs =>
      simp only [beginsWith, Bool.and_eq_true, beq_iff_eq] at h
      obtain ⟨hab, hb⟩ := h
      obtain ⟨r, hr⟩ := ih bs hb
      exact ⟨r, by rw [hab, hr]; rfl⟩

theorem substringOf_cons (m : List Char) (c : Char) (t : List Char)
    (h : substringOf m t = true) : substringOf m (c :: t) = true := by
  unfold substringOf
  rw [Bool.or_eq_true]
  exact Or.inr h

theorem substringOf_self_app (m r : List Char) : substringOf m (m ++ r) = true := by
  unfold substringOf
  rw [Bool.or_eq_true]
  exact Or.inl (beginsWith_append m r)

theorem substringOf_app_left (m : List Char) : ∀ x t, substringOf m t = true →
    substringOf m (x ++ t) = true := by
  intro x
  induction x with
  | nil => intro t h; exact h
  | cons c cs ih => intro t h; exact substringOf_cons m c (cs ++ t) (ih t h)

theorem substringOf_ex (m : List Char) : ∀ t, substringOf m t = true →
    ∃ u v, t = u ++ m ++ v := by
  intro t
  induction t with
  | nil =>
    intro h
    unfold substringOf at h
    rw [Bool.or_eq_true] at h
    rcases h with h | h
    · obtain ⟨r, hr⟩ := beginsWith_ex m [] h
      exact ⟨[], r, by simp [hr]⟩
    · simp at h
  | cons c cs ih =>
    intro h
    unfold substringOf at h
    rw [Bool.or_eq_true] at h
    rcases h with h | h
    · obtain ⟨r, hr⟩ := beginsWith_ex m (c :: cs) h
      exact ⟨[], r, by simp [hr]⟩
    · obtain ⟨u, v, huv⟩ := ih h
      exact ⟨c :: u, v, by simp [huv]⟩

theorem substringOf_of_ex (m u v : List Char) : substringOf m (u ++ m ++ v) = true := by
  rw [List.append_assoc]
  exact substringOf_app_left m u (m ++ v) (substringOf_self_app m v)

theorem findEmailsAux_sound (fuel : Nat) : ∀ s m, m ∈ findEmailsAux fuel s →
    specMatch m = true ∧ substringOf m s = true := by
  induction fuel with
  | zero => intro s m h; simp [findEmailsAux] at h
  | succ n ih =>
    intro s m h
    cases s with
    | nil => simp [findEmailsAux] at h
    | cons c rest =>
      cases hma : matchEmailAt (c :: rest) with
      | some pr =>
        obtain ⟨m0, r0⟩ := pr
        rw [findEmailsAux, hma] at h
        obtain ⟨hap, hsm, _⟩ := matchEmailAt_sound (c :: rest) m0 r0 hma
        rcases List.mem_cons.mp h with h | h
        · subst h
          exact ⟨hsm, by rw [← hap]; exact substringOf_self_app m r0⟩
        · obtain ⟨hsm', hsub⟩ := ih r0 m h
          exact ⟨hsm', by rw [← hap]; exact substringOf_app_left m m0 r0 hsub⟩
      | none =>
        rw [findEmailsAux, hma] at h
        obtain ⟨hsm, hsub⟩ := ih rest m h
        exact ⟨hsm, substringOf_cons m c rest hsub⟩

theorem findEmails_sound (s m : List Char) (h : m ∈ findEmails s) :
    specMatch m = true ∧ substringOf m s = true :=
  findEmailsAux_sound s.length s m h

theorem extract_emails_sound (t : Text) (m : Email) (h : m ∈ extract_emails t) :
    specMatch m = true ∧ substringOf m t = true :=
  findEmails_sound t m (List.mem_dedup.mp h)

/-! ### The fuel argument of `findEmailsAux` is irrelevant once it covers the
input's length, so `findEmails` is the true unbounded scan. -/

theorem matchEmailAt_consumes (s m r : List Char) (h : matchEmailAt s = some (m, r)) :
    r.length < s.length := by
  obtain ⟨hap, _, hne⟩ := matchEmailAt_sound s m r h
  have : m.length + r.length = s.length := by rw [← hap]; exact (List.length_append m r).symm
  have hm : 0 < m.length := List.length_pos.mpr hne
  omega

theorem findEmailsAux_step (n : Nat) : ∀ s : List Char, s.length ≤ n →
    findEmailsAux n s = findEmailsAux (n + 1) s := by
  induction n with
  | zero =>
    intro s hs
    have : s = [] := List.length_eq_zero.mp (Nat.le_zero.mp hs)
    subst this
    rfl
  | succ n ih =>
    intro s hs
    cases s with
    | nil => rfl
    | cons c rest =>
      cases hma : matchEmailAt (c :: rest) with
      | some pr =>
        obtain ⟨m0, r0⟩ := pr
        simp only [findEmailsAux, hma]
        have hlt : r0.length < (c :: rest).length := matchEmailAt_consumes _ _ _ hma
        have hr : r0.length ≤ n := by
          simp only [List.length_cons] at hlt hs
          omega
        rw [ih r0 hr]
      | none =>
        simp only [findEmailsAux, hma]
        have hr : rest.length ≤ n := by
          simp only [List.length_cons] at hs
          omega
        rw [ih rest hr]

theorem findEmailsAux_fuel (d n : Nat) : ∀ s : List Char, s.length ≤ n →
    findEmailsAux n s = findEmailsAux (n + d) s := by
  induction d with
  | zero => intro s _; rfl
  | succ d ih =>
    intro s hs
    rw [ih s hs, findEmailsAux_step (n + d) s (by omega)]
    rfl

/-! ### Inverting `specMatch`: the shape of a string in the regex language -/

theorem tldOk_parts (a : List Char) (h : tldOk a = true) :
    2 ≤ a.length ∧ ∀ c ∈ a, c.isAlpha = true := by
  unfold tldOk at h
  rw [Bool.and_eq_true, decide_eq_true_eq, List.all_eq_true] at h
  exact h

theorem domSplitAux_parts : ∀ m, domSplitAux m = true →
    ∃ d a, m = d ++ '.' :: a ∧ (∀ c ∈ d, isDomainChar c = true) ∧
      2 ≤ a.length ∧ ∀ c ∈ a, c.isAlpha = true := by
  intro m
  induction m with
  | nil => intro h; simp [domSplitAux] at h
  | cons c rest ih =>
    intro h
    unfold domSplitAux at h
    rw [Bool.or_eq_true, Bool.and_eq_true, Bool.and_eq_true] at h
    rcases h with ⟨hdot, hok⟩ | ⟨hdc, haux⟩
    · have hc : c = '.' := by simpa using hdot
      subst hc
      obtain ⟨hlen, hall⟩ := tldOk_parts rest hok
      exact ⟨[], rest, rfl, by simp, hlen, hall⟩
    · obtain ⟨d, a, hsplit, hd, hlen, ha⟩ := ih haux
      refine ⟨c :: d, a, by rw [hsplit]; rfl, ?_, hlen, ha⟩
      intro x hx
      rcases List.mem_cons.mp hx with hx | hx
      · subst hx; exact hdc
      · exact hd x hx

theorem domSplit_parts (m : List Char) (h : domSplit m = true) :
    ∃ d a, m = d ++ '.' :: a ∧ d ≠ [] ∧ (∀ c ∈ d, isDomainChar c = true) ∧
      2 ≤ a.length ∧ ∀ c ∈ a, c.isAlpha = true := by
  cases m with
  | nil => simp [domSplit] at h
  | cons c rest =>
    unfold domSplit at h
    rw [Bool.and_eq_true] at h
    obtain ⟨hdc, haux⟩ := h
    obtain ⟨d, a, hsplit, hd, hlen, ha⟩ := domSplitAux_parts rest haux
    refine ⟨c :: d, a, by rw [hsplit]; rfl, by simp, ?_, hlen, ha⟩
    intro x hx
    rcases List.mem_cons.mp hx with hx | hx
    · subst hx; exact hdc
    · exact hd x hx

theorem specMatch_parts (m : List Char) (h : specMatch m = true) :
    ∃ l d a, m = l ++ '@' :: (d ++ '.' :: a) ∧ l ≠ [] ∧
      (∀ c ∈ l, isLocalChar c = true) ∧ d ≠ [] ∧
      (∀ c ∈ d, isDomainChar c = true) ∧ 2 ≤ a.length ∧
      ∀ c ∈ a, c.isAlpha = true := by
  unfold specMatch at h
  cases hdw : m.dropWhile isLocalChar with
  | nil => rw [hdw] at h; simp at h
  | cons c rest =>
    rw [hdw] at h
    rw [Bool.and_eq_true, Bool.and_eq_true] at h
    obtain ⟨⟨hc, hne⟩, hds⟩ := h
    have hc' : c = '@' := by simpa using hc
    subst hc'
    obtain ⟨d, a, hsplit, hdne, hd, hlen, ha⟩ := domSplit_parts rest hds
    refine ⟨m.takeWhile isLocalChar, d, a, ?_, ?_, ?_, hdne, hd, hlen, ha⟩
    · conv_lhs => rw [← List.takeWhile_append_dropWhile isLocalChar m]
      rw [hdw, hsplit]
    · intro hnil
      rw [hnil] at hne
      simp at hne
    · exact fun x hx => List.mem_takeWhile_imp hx

/-! ### Character-class facts -/

theorem localChar_not_at (c : Char) (h : isLocalChar c = true) : c ≠ '@' := by
  intro hc; subst hc; exact absurd h (by decide)

theorem domainChar_not_at (c : Char) (h : isDomainChar c = true) : c ≠ '@' := by
  intro hc; subst hc; exact absurd h (by decide)

theorem alpha_not_at (c : Char) (h : c.isAlpha = true) : c ≠ '@' := by
  intro hc; subst hc; exact absurd h (by decide)

theorem ws_cases (c : Char) (h : c.isWhitespace = true) :
    c = ' ' ∨ c = '\t' ∨ c = '\r' ∨ c = '\n' := by
  have : (c == ' ' || c == '\t' || c == '\r' || c == '\n') = true := h
  simp only [Bool.or_eq_true, beq_iff_eq] at this
  tauto

theorem localChar_not_ws (c : Char) (h : isLocalChar c = true) : c.isWhitespace = false := by
  by_contra hws
  rw [Bool.not_eq_false] at hws
  rcases ws_cases c hws with hc | hc | hc | hc <;> (subst hc; exact absurd h (by decide))

theorem domainChar_not_ws (c : Char) (h : isDomainChar c = true) : c.isWhitespace = false := by
  by_contra hws
  rw [Bool.not_eq_false] at hws
  rcases ws_cases c hws with hc | hc | hc | hc <;> (subst hc; exact absurd h (by decide))

theorem alpha_not_ws (c : Char) (h : c.isAlpha = true) : c.isWhitespace = false := by
  by_contra hws
  rw [Bool.not_eq_false] at hws
  rcases ws_cases c hws with hc | hc | hc | hc <;> (subst hc; exact absurd h (by decide))

/-! ### Consequences of `specMatch` needed by the invariant claims -/

theorem specMatch_count_at (m : List Char) (h : specMatch m = true) :
    m.count '@' = 1 := by
  obtain ⟨l, d, a, hm, _, hl, _, hd, _, ha⟩ := specMatch_parts m h
  have hln : '@' ∉ l := fun hx => localChar_not_at '@' (hl '@' hx) rfl
  have hdn : '@' ∉ d := fun hx => domainChar_not_at '@' (hd '@' hx) rfl
  have han : '@' ∉ a := fun hx => alpha_not_at '@' (ha '@' hx) rfl
  subst hm
  rw [List.count_append, List.count_cons, List.count_append, List.count_cons]
  rw [List.count_eq_zero.mpr hln, List.count_eq_zero.mpr hdn, List.count_eq_zero.mpr han]
  simp

theorem specMatch_not_ws (m : List Char) (h : specMatch m = true) :
    ∀ c ∈ m, c.isWhitespace = false := by
  obtain ⟨l, d, a, hm, _, hl, _, hd, _, ha⟩ := specMatch_parts m h
  subst hm
  intro c hc
  rcases List.mem_append.mp hc with hc | hc
  · exact localChar_not_ws c (hl c hc)
  · rcases List.mem_cons.mp hc with hc | hc
    · subst hc; decide
    · rcases List.mem_append.mp hc with hc | hc
      · exact domainChar_not_ws c (hd c hc)
      · rcases List.mem_cons.mp hc with hc | hc
        · subst hc; decide
        · exact alpha_not_ws c (ha c hc)

theorem specMatch_no_nl (m : List Char) (h : specMatch m = true) : '\n' ∉ m := by
  intro hmem
  have := specMatch_not_ws m h '\n' hmem
  exact absurd this (by decide)

theorem specMatch_split_at (m : List Char) (h : specMatch m = true) :
    ∃ l r : List Char, m = l ++ '@' :: r ∧ l ≠ [] ∧ r ≠ [] := by
  obtain ⟨l, d, a, hm, hlne, _, _, _, _, _⟩ := specMatch_parts m h
  exact ⟨l, d ++ '.' :: a, hm, hlne, by simp⟩

/-! ### Directory-walker lemmas -/

theorem visitedFiles_false (t : FSTree) :
    visitedFiles t false = if t.rootOk = true then t.filesOf else [] := by
  cases t with
  | node r files subdirs =>
    cases r with
    | false => simp [visitedFiles, walkTriples, FSTree.rootOk, FSTree.filesOf]
    | true => simp [visitedFiles, walkTriples, FSTree.rootOk, FSTree.filesOf]

mutual
theorem walkTriples_flatten : ∀ t : FSTree, allReadable t = true →
    (walkTriples t).flatten = allFiles t
  | .node r files subdirs, h => by
    have hr : r = true := by
      cases r
      · exact absurd h (by simp [allReadable])
      · rfl
    subst hr
    have hf : allReadableForest subdirs = true := by
      have := h
      rw [allReadable, Bool.and_eq_true] at this
      exact this.2
    rw [walkTriples, allFiles, List.flatten_cons, walkForest_flatten subdirs hf]
theorem walkForest_flatten : ∀ f : FSForest, allReadableForest f = true →
    (walkForest f).flatten = allFilesForest f
  | .nil, _ => by rw [walkForest, allFilesForest]; rfl
  | .cons t rest, h => by
    have h1 : allReadable t = true := by
      have := h
      rw [allReadableForest, Bool.and_eq_true] at this
      exact this.1
    have h2 : allReadableForest rest = true := by
      have := h
      rw [allReadableForest, Bool.and_eq_true] at this
      exact this.2
    rw [walkForest, allFilesForest, List.flatten_append,
      walkTriples_flatten t h1, walkForest_flatten rest h2]
end

theorem list_toFinset_dedup (l : List Email) : l.dedup.toFinset = l.toFinset := by
  ext a
  simp [List.mem_toFinset, List.mem_dedup]

theorem dirFold_toFinset : ∀ files : List (Option Text), ∀ acc : List Email,
    (dirFold files acc).toFinset = acc.toFinset ∪ mergeReadable files := by
  intro files
  induction files with
  | nil =>
    intro acc
    simp [dirFold, mergeReadable]
  | cons f fs ih =>
    intro acc
    cases f with
    | none =>
      have h1 : dirFold (none :: fs) acc = dirFold fs acc := by
        simp [dirFold, extract_emails_from_file]
      have h2 : mergeReadable (none :: fs) = mergeReadable fs := by
        simp [mergeReadable]
      rw [h1, h2, ih acc]
    | some c =>
      have h1 : dirFold (some c :: fs) acc = dirFold fs ((acc ++ extract_emails c).dedup) := by
        simp [dirFold, extract_emails_from_file]
      have h2 : mergeReadable (some c :: fs) =
          (extract_emails c).toFinset ∪ mergeReadable fs := by
        simp [mergeReadable]
      rw [h1, h2, ih, list_toFinset_dedup, List.toFinset_append, Finset.union_assoc]

theorem dirFold_nodup : ∀ files : List (Option Text), ∀ acc : List Email,
    acc.Nodup → (dirFold files acc).Nodup := by
  intro files
  induction files with
  | nil => intro acc h; exact h
  | cons f fs ih =>
    intro acc h
    cases f with
    | none =>
      have h1 : dirFold (none :: fs) acc = dirFold fs acc := by
        simp [dirFold, extract_emails_from_file]
      rw [h1]; exact ih acc h
    | some c =>
      have h1 : dirFold (some c :: fs) acc = dirFold fs ((acc ++ extract_emails c).dedup) := by
        simp [dirFold, extract_emails_from_file]
      rw [h1]; exact ih _ (List.nodup_dedup _)

theorem mergeReadable_mem : ∀ files : List (Option Text), ∀ m : Email,
    m ∈ mergeReadable files ↔ ∃ c : Text, some c ∈ files ∧ m ∈ extract_emails c := by
  intro files
  induction files with
  | nil => intro m; simp [mergeReadable]
  | cons f fs ih =>
    intro m
    cases f with
    | none =>
      have h2 : mergeReadable (none :: fs) = mergeReadable fs := by
        simp [mergeReadable]
      rw [h2, ih]
      constructor
      · rintro ⟨c, hc, hm⟩; exact ⟨c, List.mem_cons_of_mem _ hc, hm⟩
      · rintro ⟨c, hc, hm⟩
        rcases List.mem_cons.mp hc with hc | hc
        · exact absurd hc (by simp)
        · exact ⟨c, hc, hm⟩
    | some c0 =>
      have h2 : mergeReadable (some c0 :: fs) =
          (extract_emails c0).toFinset ∪ mergeReadable fs := by
        simp [mergeReadable]
      rw [h2]
      rw [Finset.mem_union, List.mem_toFinset, ih]
      constructor
      · rintro (hm | ⟨c, hc, hm⟩)
        · exact ⟨c0, List.mem_cons_self _ _, hm⟩
        · exact ⟨c, List.mem_cons_of_mem _ hc, hm⟩
      · rintro ⟨c, hc, hm⟩
        rcases List.mem_cons.mp hc with hc | hc
        · have : c = c0 := by injection hc
          subst this
          exact Or.inl hm
        · exact Or.inr ⟨c, hc, hm⟩

theorem dir_result_toFinset (t : FSTree) (rcv : Bool) :
    (dirFold (visitedFiles t rcv) []).toFinset = mergeReadable (visitedFiles t rcv) := by
  rw [dirFold_toFinset]
  simp

theorem dir_result_mem (t : FSTree) (rcv : Bool) (m : Email) :
    m ∈ dirFold (visitedFiles t rcv) [] ↔
      ∃ c : Text, some c ∈ visitedFiles t rcv ∧ m ∈ extract_emails c := by
  rw [← mergeReadable_mem, ← dir_result_toFinset t rcv, List.mem_toFinset]

/-! ### Sink lemmas: writing one address per line and reading lines back -/

theorem splitNl_app (e : List Char) (he : '\n' ∉ e) : ∀ rest : List Char,
    splitNl (e ++ '\n' :: rest) = e :: splitNl rest := by
  induction e with
  | nil => intro rest; simp [splitNl]
  | cons c e' ih =>
    intro rest
    have hc : ¬c = '\n' := fun hc => he (hc ▸ List.mem_cons_self c e')
    have he' : '\n' ∉ e' := fun hx => he (List.mem_cons_of_mem c hx)
    rw [List.cons_append, splitNl, if_neg hc, ih he' rest]

theorem splitNl_save (l : List Email) (h : ∀ e ∈ l, '\n' ∉ e) :
    splitNl (save_emails_to_file l) = l ++ [[]] := by
  induction l with
  | nil => rfl
  | cons e l' ih =>
    have he : '\n' ∉ e := h e (List.mem_cons_self e l')
    have h' : ∀ x ∈ l', '\n' ∉ x := fun x hx => h x (List.mem_cons_of_mem e hx)
    have hsave : save_emails_to_file (e :: l') = e ++ '\n' :: save_emails_to_file l' := by
      simp [save_emails_to_file]
    rw [hsave, splitNl_app e he, ih h']
    rfl

theorem readLines_save (l : List Email) (h : ∀ e ∈ l, '\n' ∉ e) :
    readLines (save_emails_to_file l) = l := by
  unfold readLines
  rw [splitNl_save l h]
  have h1 : (l ++ [[]]).getLast? = some ([] : List Char) := by
    rw [List.getLast?_concat]
  rw [if_pos h1]
  exact List.dropLast_concat

/-! ### A decidable sufficient check for `no matching substring` -/

theorem noMatch_check (t : List Char)
    (h : (t.tails.all fun u => u.inits.all fun m => !specMatch m) = true) :
    ∀ m : List Char, substringOf m t = true → specMatch m = false := by
  intro m hsub
  obtain ⟨u, v, huv⟩ := substringOf_ex m t hsub
  rw [List.all_eq_true] at h
  have ht : t = u ++ (m ++ v) := by rw [huv, List.append_assoc]
  have hu : (m ++ v) ∈ t.tails := by
    rw [List.mem_tails, ht]
    exact List.suffix_append u (m ++ v)
  have h2 := h (m ++ v) hu
  rw [List.all_eq_true] at h2
  have hm : m ∈ (m ++ v).inits := by
    rw [List.mem_inits]
    exact List.prefix_append m v
  have h3 := h2 m hm
  simpa using h3

/-! ### Control-flow lemmas about `main` -/

theorem finishRun_branches (bs : List Branch) (e : Option (List Email)) :
    (finishRun bs e).branches = bs := by
  cases e <;> rfl

theorem main_model_branches (w : World) :
    (main_model w).branches =
      if isUrlSource w.source then [Branch.url]
      else if w.isfile then [Branch.file]
      else if w.isdir then [Branch.dir]
      else [] := by
  unfold main_model
  by_cases hu : isUrlSource w.source = true
  · simp [hu, finishRun_branches]
  · by_cases hf : w.isfile = true
    · simp [hu, hf, finishRun_branches]
    · by_cases hd : w.isdir = true
      · simp [hu, hf, hd, finishRun_branches]
      · simp [hu, hf, hd]

theorem count_eq_one_of_nodup_mem (S : List Email) (A : Email) (hnd : S.Nodup)
    (hm : A ∈ S) : S.count A = 1 := by
  induction S with
  | nil => simp at hm
  | cons b bs ih =>
    rw [List.count_cons]
    rcases List.nodup_cons.mp hnd with ⟨hb, hbs⟩
    rcases List.mem_cons.mp hm with h | h
    · subst h
      rw [List.count_eq_zero.mpr hb]
      simp
    · have hne : ¬b = A := by
        intro hab
        subst hab
        exact hb h
      rw [ih hbs h]
      simp [hne]

/-! ## Claims -/

/-- C1, counterexample. The claim says the Pattern Matcher returns exactly the
set of substrings matching the rule. It does not: `"b@cd.com"` is a substring
of `"ab@cd.com"` and matches the rule, yet `re.findall` (leftmost,
non-overlapping, greedy) returns only `{"ab@cd.com"}`, which does not contain
it. -/
theorem c1_counterexample :
    specMatch "b@cd.com".toList = true ∧
    substringOf "b@cd.com".toList "ab@cd.com".toList = true ∧
    "b@cd.com".toList ∉ extract_emails "ab@cd.com".toList ∧
    extract_emails "ab@cd.com".toList = ["ab@cd.com".toList] :=
  ⟨by decide, by decide, by decide, by decide⟩

/-- C1, amended. Every string the Pattern Matcher returns is a substring of
the input matching the rule (one-or-more characters from
{letters, digits, ., _, %, +, -}, then `@`, then one-or-more characters from
{letters, digits, ., -}, then a literal `.`, then two-or-more letters) — but
the returned set is the set of leftmost non-overlapping greedy matches, not
the set of all matching substrings. On the text
`"Contact: a.b+c@example.co.uk or bad-email"` it returns exactly
`{"a.b+c@example.co.uk"}`. -/
theorem c1_amended :
    (∀ (t : Text) (m : Email), m ∈ extract_emails t →
      specMatch m = true ∧ substringOf m t = true) ∧
    extract_emails "Contact: a.b+c@example.co.uk or bad-email".toList
      = ["a.b+c@example.co.uk".toList] :=
  ⟨fun t m h => extract_emails_sound t m h, by decide⟩

/-- Witness for C1 (amended): the membership hypothesis discharged at a
concrete input. -/
theorem c1_amended_witness :
    "a@b.co".toList ∈ extract_emails "see a@b.co".toList ∧
    (specMatch "a@b.co".toList = true ∧
      substringOf "a@b.co".toList "see a@b.co".toList = true) :=
  ⟨by decide, c1_amended.1 "see a@b.co".toList "a@b.co".toList (by decide)⟩

/-- C2, counterexample. The claim says a recursive walk visits every file at
every nesting depth of the directory tree. It does not: for a tree whose root
is listable but whose only subdirectory is not, the subdirectory's file —
whose content is a matching address — is in the tree, yet `os.walk` (default
`onerror=None`) skips the unlistable subdirectory silently, the recursive
walk visits nothing, and the extraction result is empty. -/
theorem c2_counterexample :
    allFiles (FSTree.node true []
        (FSForest.cons (FSTree.node false [some "x@y.com".toList] FSForest.nil)
          FSForest.nil))
      = [some "x@y.com".toList] ∧
    visitedFiles (FSTree.node true []
        (FSForest.cons (FSTree.node false [some "x@y.com".toList] FSForest.nil)
          FSForest.nil)) true
      = [] ∧
    some "x@y.com".toList ∉ visitedFiles (FSTree.node true []
        (FSForest.cons (FSTree.node false [some "x@y.com".toList] FSForest.nil)
          FSForest.nil)) true ∧
    extract_emails_from_directory (FSTree.node true []
        (FSForest.cons (FSTree.node false [some "x@y.com".toList] FSForest.nil)
          FSForest.nil)) true
      = some [] :=
  ⟨by decide, by decide, by decide, by decide⟩

/-- C2, amended. Non-recursive directory extraction visits exactly the
top-level directory's own files and never any file inside a subdirectory;
recursive extraction visits every file at every nesting depth *provided every
directory of the tree is listable* — an unlistable directory is silently
skipped by `os.walk` together with its entire subtree (see the
counterexample); and for both modes the result is the union of the per-file
extraction results of the visited readable files. -/
theorem c2 :
    ∀ t : FSTree,
      (visitedFiles t false = if t.rootOk = true then t.filesOf else []) ∧
      (allReadable t = true → visitedFiles t true = allFiles t) ∧
      ∀ rcv : Bool,
        (extract_emails_from_directory t rcv).map (fun l => l.toFinset)
          = some (mergeReadable (visitedFiles t rcv)) := by
  intro t
  refine ⟨visitedFiles_false t, ?_, ?_⟩
  · intro h
    have : visitedFiles t true = (walkTriples t).flatten := by
      simp [visitedFiles]
    rw [this, walkTriples_flatten t h]
  · intro rcv
    unfold extract_emails_from_directory
    show some ((dirFold (visitedFiles t rcv) []).toFinset)
      = some (mergeReadable (visitedFiles t rcv))
    exact congrArg some (dir_result_toFinset t rcv)

/-- Witness for C2: the all-directories-listable hypothesis discharged on a
concrete two-level tree. -/
theorem c2_witness :
    allReadable (FSTree.node true [some "x@y.com".toList]
      (FSForest.cons (FSTree.node true [some "n@p.io".toList] FSForest.nil)
        FSForest.nil)) = true ∧
    visitedFiles (FSTree.node true [some "x@y.com".toList]
      (FSForest.cons (FSTree.node true [some "n@p.io".toList] FSForest.nil)
        FSForest.nil)) true
      = allFiles (FSTree.node true [some "x@y.com".toList]
        (FSForest.cons (FSTree.node true [some "n@p.io".toList] FSForest.nil)
          FSForest.nil)) :=
  ⟨by decide,
    (c2 (FSTree.node true [some "x@y.com".toList]
      (FSForest.cons (FSTree.node true [some "n@p.io".toList] FSForest.nil)
        FSForest.nil))).2.1 (by decide)⟩

/-- C3. The Dispatcher classifies the source first-match-wins: an
`http://`/`https://` prefix wins over everything, else an existing file, else
an existing directory, else the invalid-source branch which logs an error and
terminates the run with no extraction branch executed and no output. At most
one extraction branch executes in every run. -/
theorem c3 :
    ∀ w : World,
      (main_model w).branches.length ≤ 1 ∧
      (isUrlSource w.source = true → (main_model w).branches = [Branch.url]) ∧
      (isUrlSource w.source = false → w.isfile = true →
        (main_model w).branches = [Branch.file]) ∧
      (isUrlSource w.source = false → w.isfile = false → w.isdir = true →
        (main_model w).branches = [Branch.dir]) ∧
      (isUrlSource w.source = false → w.isfile = false → w.isdir = false →
        (main_model w).branches = [] ∧ (main_model w).emails = none ∧
          (main_model w).sink = none ∧ (main_model w).errorLogged = true) := by
  intro w
  refine ⟨?_, ?_, ?_, ?_, ?_⟩
  · rw [main_model_branches]
    by_cases hu : isUrlSource w.source = true
    · simp [hu]
    · by_cases hf : w.isfile = true
      · simp [hu, hf]
      · by_cases hd : w.isdir = true
        · simp [hu, hf, hd]
        · simp [hu, hf, hd]
  · intro hu
    rw [main_model_branches, if_pos hu]
  · intro hu hf
    rw [main_model_branches, if_neg (by simp [hu]), if_pos hf]
  · intro hu hf hd
    rw [main_model_branches, if_neg (by simp [hu]), if_neg (by simp [hf]), if_pos hd]
  · intro hu hf hd
    have hm : main_model w = ⟨[], none, none, true⟩ := by
      unfold main_model
      rw [if_neg (by simp [hu]), if_neg (by simp [hf]), if_neg (by simp [hd])]
    rw [hm]
    exact ⟨rfl, rfl, rfl, rfl⟩

/-- Witness for C3: the invalid-source conclusion at the concrete source
`"./does_not_exist"` (scenario 4), and the URL-wins conclusion at a concrete
`http://` source. -/
theorem c3_witness :
    ((main_model ⟨"./does_not_exist".toList, false, false, none, none,
        FSTree.node true [] FSForest.nil, false⟩).branches = [] ∧
      (main_model ⟨"./does_not_exist".toList, false, false, none, none,
        FSTree.node true [] FSForest.nil, false⟩).emails = none ∧
      (main_model ⟨"./does_not_exist".toList, false, false, none, none,
        FSTree.node true [] FSForest.nil, false⟩).sink = none ∧
      (main_model ⟨"./does_not_exist".toList, false, false, none, none,
        FSTree.node true [] FSForest.nil, false⟩).errorLogged = true) ∧
    (main_model ⟨"http://example.com".toList, true, true, some [], none,
      FSTree.node true [] FSForest.nil, false⟩).branches = [Branch.url] :=
  ⟨(c3 ⟨"./does_not_exist".toList, false, false, none, none,
      FSTree.node true [] FSForest.nil, false⟩).2.2.2.2
        (by decide) (by decide) (by decide),
    (c3 ⟨"http://example.com".toList, true, true, some [], none,
      FSTree.node true [] FSForest.nil, false⟩).2.1 (by decide)⟩

/-- C4. During directory extraction a file whose reader yields the Failure
Marker is skipped and traversal continues: the result is exactly the union of
the per-file extractions of the readable visited files, and the directory
extraction never fails as a whole because of an unreadable file. -/
theorem c4 :
    ∀ (t : FSTree) (rcv : Bool),
      (extract_emails_from_directory t rcv).map (fun l => l.toFinset)
        = some (mergeReadable (visitedFiles t rcv)) ∧
      extract_emails_from_directory t rcv ≠ none := by
  intro t rcv
  constructor
  · unfold extract_emails_from_directory
    show some ((dirFold (visitedFiles t rcv) []).toFinset)
      = some (mergeReadable (visitedFiles t rcv))
    exact congrArg some (dir_result_toFinset t rcv)
  · unfold extract_emails_from_directory
    simp

/-- C5 (code bug), evaluation at the failing input. For a directory whose
root cannot be listed (`os.scandir` fails, e.g. permission denied), `os.walk`
with its default `onerror=None` swallows the error and yields nothing, so
`extract_emails_from_directory` returns the success value `set()` — not the
Failure Marker `None` its own docstring and the spec promise. -/
theorem c5_eval :
    extract_emails_from_directory
        (FSTree.node false [some "x@y.com".toList] FSForest.nil) false
      = some [] ∧
    extract_emails_from_directory
        (FSTree.node false [some "x@y.com".toList] FSForest.nil) true
      = some [] ∧
    (some ([] : List Email) ≠ none) :=
  ⟨by decide, by decide, by decide⟩

/-- C6. Whenever top-level extraction yields no set — a failed URL fetch, a
missing single file, an invalid source classification (all of which leave
`emails = None`) — the run logs an error and stops before the sink: nothing is
written to the output destination or standard output. -/
theorem c6 :
    ∀ w : World, (main_model w).emails = none →
      (main_model w).sink = none ∧ (main_model w).errorLogged = true := by
  intro w h
  unfold main_model at h ⊢
  by_cases hu : isUrlSource w.source = true
  · rw [if_pos hu] at h ⊢
    cases he : extract_emails_from_url w.urlFetch with
    | some es => rw [he] at h; simp [finishRun] at h
    | none => exact ⟨rfl, rfl⟩
  · rw [if_neg (by simp at hu ⊢; exact hu)] at h ⊢
    by_cases hf : w.isfile = true
    · rw [if_pos hf] at h ⊢
      cases he : extract_emails_from_file w.fileContent with
      | some es => rw [he] at h; simp [finishRun] at h
      | none => exact ⟨rfl, rfl⟩
    · rw [if_neg hf] at h ⊢
      by_cases hd : w.isdir = true
      · rw [if_pos hd] at h ⊢
        cases he : extract_emails_from_directory w.tree w.recursive with
        | some es => rw [he] at h; simp [finishRun] at h
        | none => exact ⟨rfl, rfl⟩
      · rw [if_neg hd] at h ⊢
        exact ⟨rfl, rfl⟩

/-- Witness for C6: a timed-out URL fetch (scenario 3) at a concrete world. -/
theorem c6_witness :
    (main_model ⟨"http://slow.example".toList, false, false, none, none,
      FSTree.node true [] FSForest.nil, false⟩).sink = none ∧
    (main_model ⟨"http://slow.example".toList, false, false, none, none,
      FSTree.node true [] FSForest.nil, false⟩).errorLogged = true :=
  c6 ⟨"http://slow.example".toList, false, false, none, none,
    FSTree.node true [] FSForest.nil, false⟩ (by decide)

/-- C7, counterexample. The claim quantifies over every text in which an
address-like string `A` occurs: `A = "a@b.co"` matches the rule and occurs in
the text `"ba@b.co"`, yet the extraction result is `{"ba@b.co"}`, which does
not contain `A` at all (the greedy match extends the local part to the left). -/
theorem c7_counterexample :
    specMatch "a@b.co".toList = true ∧
    substringOf "a@b.co".toList "ba@b.co".toList = true ∧
    "a@b.co".toList ∉ extract_emails "ba@b.co".toList ∧
    extract_emails "ba@b.co".toList = ["ba@b.co".toList] :=
  ⟨by decide, by decide, by decide, by decide⟩

/-- C7, amended. Extraction results are duplicate-free: a single text
contributes each address at most once, and an address extracted from several
files of one directory traversal appears exactly once in the aggregated
result. Scenario 2 holds: a directory with two files each containing
`"x@y.com"` yields the aggregated result `{"x@y.com"}`. (What is deduplicated
are the *matches*; an address-like string merely occurring in the text need
not be a match, see the counterexample.) -/
theorem c7_amended :
    (∀ t : Text, (extract_emails t).Nodup) ∧
    (∀ (tr : FSTree) (rcv : Bool) (S : List Email) (A : Email),
      extract_emails_from_directory tr rcv = some S →
      (∃ c : Text, some c ∈ visitedFiles tr rcv ∧ A ∈ extract_emails c) →
      S.count A = 1) ∧
    extract_emails_from_directory
        (FSTree.node true [some "x@y.com".toList, some "x@y.com".toList]
          FSForest.nil) false
      = some ["x@y.com".toList] := by
  refine ⟨fun t => List.nodup_dedup _, ?_, by decide⟩
  intro tr rcv S A hdir hex
  have hS : S = dirFold (visitedFiles tr rcv) [] := by
    unfold extract_emails_from_directory at hdir
    injection hdir with h'
    exact h'.symm
  subst hS
  have hnd : (dirFold (visitedFiles tr rcv) []).Nodup :=
    dirFold_nodup (visitedFiles tr rcv) [] List.nodup_nil
  have hmem : A ∈ dirFold (visitedFiles tr rcv) [] :=
    (dir_result_mem tr rcv A).mpr hex
  exact count_eq_one_of_nodup_mem _ A hnd hmem

/-- Witness for C7 (amended): the exactly-once conclusion discharged at the
concrete scenario-2 directory. -/
theorem c7_amended_witness :
    (["x@y.com".toList] : List Email).count "x@y.com".toList = 1 :=
  c7_amended.2.1
    (FSTree.node true [some "x@y.com".toList, some "x@y.com".toList] FSForest.nil)
    false ["x@y.com".toList] "x@y.com".toList (by decide)
    ⟨"x@y.com".toList, by decide, by decide⟩

/-- C8. On a successfully read source whose text contains no substring
matching the pattern, extraction returns the empty set — a success value,
distinct from the Failure Marker `None`. -/
theorem c8 :
    ∀ t : Text, (∀ m : List Char, substringOf m t = true → specMatch m = false) →
      extract_emails_from_file (some t) = some [] := by
  intro t h
  have hfe : findEmails t = [] := by
    by_contra hne
    obtain ⟨m, hm⟩ := List.exists_mem_of_ne_nil _ hne
    obtain ⟨hsm, hsub⟩ := findEmails_sound t m hm
    rw [h m hsub] at hsm
    exact absurd hsm (by simp)
  have heq : extract_emails_from_file (some t) = some (extract_emails t) := rfl
  rw [heq]
  unfold extract_emails
  rw [hfe]
  rfl

/-- Witness for C8: the no-matching-substring hypothesis discharged at the
concrete text `"hello world"`. -/
theorem c8_witness :
    extract_emails_from_file (some "hello world".toList) = some [] :=
  c8 "hello world".toList (noMatch_check "hello world".toList (by decide))

/-- C9. Round-trip: writing an Extraction Result to a destination file, one
address per line, and reading that file back line by line yields exactly the
same set of addresses — both for a single-text extraction result and for an
aggregated directory result. -/
theorem c9 :
    (∀ t : Text,
      (readLines (save_emails_to_file (extract_emails t))).toFinset
        = (extract_emails t).toFinset) ∧
    ∀ (tr : FSTree) (rcv : Bool) (S : List Email),
      extract_emails_from_directory tr rcv = some S →
      (readLines (save_emails_to_file S)).toFinset = S.toFinset := by
  constructor
  · intro t
    have hnl : ∀ e ∈ extract_emails t, '\n' ∉ e := fun e he =>
      specMatch_no_nl e (extract_emails_sound t e he).1
    rw [readLines_save (extract_emails t) hnl]
  · intro tr rcv S hdir
    have hS : S = dirFold (visitedFiles tr rcv) [] := by
      unfold extract_emails_from_directory at hdir
      injection hdir with h'
      exact h'.symm
    have hnl : ∀ e ∈ S, '\n' ∉ e := by
      intro e he
      rw [hS] at he
      obtain ⟨c, _, hm⟩ := (dir_result_mem tr rcv e).mp he
      exact specMatch_no_nl e (extract_emails_sound c e hm).1
    rw [readLines_save S hnl]

/-- Witness for C9: the directory-result round-trip discharged at a concrete
one-file directory. -/
theorem c9_witness :
    (readLines (save_emails_to_file ["q@r.st".toList])).toFinset
      = (["q@r.st".toList] : List Email).toFinset :=
  c9.2 (FSTree.node true [some "q@r.st".toList] FSForest.nil) false
    ["q@r.st".toList] (by decide)

/-- C10. Invariant of every extracted string: exactly one `@`, nonempty on
both sides of it, no whitespace (in particular no newline) anywhere, and it
occurs as a contiguous substring of the text it was extracted from. -/
theorem c10 :
    ∀ (t : Text) (m : Email), m ∈ extract_emails t →
      m.count '@' = 1 ∧
      (∃ l r : List Char, m = l ++ '@' :: r ∧ l ≠ [] ∧ r ≠ []) ∧
      (∀ c ∈ m, c.isWhitespace = false) ∧
      (∃ u v : List Char, t = u ++ m ++ v) := by
  intro t m h
  obtain ⟨hsm, hsub⟩ := extract_emails_sound t m h
  exact ⟨specMatch_count_at m hsm, specMatch_split_at m hsm,
    specMatch_not_ws m hsm, substringOf_ex m t hsub⟩

/-- Witness for C10: the membership hypothesis discharged at a concrete text. -/
theorem c10_witness :
    "p_1@q.fr".toList ∈ extract_emails "see p_1@q.fr!".toList ∧
    (("p_1@q.fr".toList : List Char).count '@' = 1 ∧
      (∃ l r : List Char, "p_1@q.fr".toList = l ++ '@' :: r ∧ l ≠ [] ∧ r ≠ []) ∧
      (∀ c ∈ "p_1@q.fr".toList, c.isWhitespace = false) ∧
      (∃ u v : List Char, "see p_1@q.fr!".toList = u ++ "p_1@q.fr".toList ++ v)) :=
  ⟨by decide, c10 "see p_1@q.fr!".toList "p_1@q.fr".toList (by decide)⟩

end VScan
